import Mathlib

/-!
Verification development for a minimal replicated key-value store
(`src/main.rs` leader, `src/follower.rs` follower library,
`src/follower/main.rs` standalone follower).

The Rust code is shallowly embedded:
* `HashMap<String, String>` is modelled as an association list with unique
  keys (`Db`); `insert` replaces in place or appends, `remove` drops the
  key, `get`/`contains_key` look the key up.
* `Command::from` (which calls `.expect` and hence panics when a token is
  missing) is modelled as an `Option`-returning parser; `none` models the
  panic.
* File and socket writes are modelled as an explicit event trace
  (`Event.fwrite` for `File::write_all`, `Event.nwrite` for the
  `TcpStream::write_all` forward, `Event.sync` for `File::sync_all`).
* `split_whitespace`, `starts_with`, `trim_end` and `BufRead::lines` are
  modelled by executable character-list functions below (Rust recognises
  Unicode whitespace; ASCII whitespace, which is all that occurs here, is
  modelled identically).
-/

namespace DistKV

/-- Rust `str::split_whitespace`: whitespace-separated tokens, no empties. -/
def wsTokensAux : List Char → List Char → List String
  | [], acc => if acc.isEmpty then [] else [⟨acc.reverse⟩]
  | c :: cs, acc =>
    if c.isWhitespace then
      if acc.isEmpty then wsTokensAux cs [] else (⟨acc.reverse⟩ : String) :: wsTokensAux cs []
    else wsTokensAux cs (c :: acc)

def wsTokens (s : String) : List String := wsTokensAux s.toList []

/-- Rust `str::starts_with(pre)`: raw string prefix test. -/
def strStartsWith (s pre : String) : Bool := pre.toList.isPrefixOf s.toList

/-- Rust `str::trim_end`: drop trailing whitespace. -/
def trimEnd (s : String) : String := ⟨(s.toList.reverse.dropWhile Char.isWhitespace).reverse⟩

/-- Split a character stream at newline characters (the separators are dropped). -/
def splitNlAux : List Char → List Char → List (List Char)
  | [], acc => [acc.reverse]
  | c :: cs, acc =>
    if c = '\n' then acc.reverse :: splitNlAux cs [] else splitNlAux cs (c :: acc)

/-- Strip one trailing carriage return, as `BufRead::lines` does per line. -/
def stripCr (l : List Char) : List Char :=
  match l.getLast? with
  | some c => if c = '\r' then l.dropLast else l
  | none => l

/-- Rust `BufRead::lines` over the whole file contents: split at `\n`,
strip a trailing `\r` per line, and do not emit a final empty fragment. -/
def fileLines (s : String) : List String :=
  let parts := splitNlAux s.toList []
  let parts := match parts.getLast? with
    | some [] => parts.dropLast
    | _ => parts
  parts.map (fun l => (⟨stripCr l⟩ : String))

/-! ### The state table (`HashMap<String, String>`) -/

/-- `type Db = HashMap<String, String>`, as an association list with unique keys. -/
abbrev Db := List (String × String)

/-- `HashMap::get`. -/
def dbGet : Db → String → Option String
  | [], _ => none
  | (k', v') :: rest, k => if k' = k then some v' else dbGet rest k

/-- `HashMap::contains_key`. -/
def dbContains (db : Db) (k : String) : Bool := (dbGet db k).isSome

/-- `HashMap::insert`: replace in place when the key is present, else append. -/
def dbInsert : Db → String → String → Db
  | [], k, v => [(k, v)]
  | (k', v') :: rest, k, v =>
    if k' = k then (k, v) :: rest else (k', v') :: dbInsert rest k v

/-- `HashMap::remove` (the removed key's entries are dropped). -/
def dbRemove : Db → String → Db
  | [], _ => []
  | (k', v') :: rest, k =>
    if k' = k then dbRemove rest k else (k', v') :: dbRemove rest k

theorem dbGet_insert (db : Db) (k v k' : String) :
    dbGet (dbInsert db k v) k' = if k' = k then some v else dbGet db k' := by
  induction db with
  | nil =>
      simp only [dbInsert, dbGet]
      split_ifs <;> first | rfl | (subst_vars; first | rfl | simp_all)
  | cons p rest ih =>
      obtain ⟨a, b⟩ := p
      by_cases hak : a = k
      · subst hak
        simp only [dbInsert, if_pos rfl, dbGet]
        split_ifs <;> first | rfl | (subst_vars; first | rfl | simp_all)
      · simp only [dbInsert, if_neg hak, dbGet, ih]
        split_ifs <;> first | rfl | (subst_vars; first | rfl | simp_all)

theorem dbGet_remove (db : Db) (k k' : String) :
    dbGet (dbRemove db k) k' = if k' = k then none else dbGet db k' := by
  induction db with
  | nil =>
      simp only [dbRemove, dbGet]
      split_ifs <;> first | rfl | (subst_vars; first | rfl | simp_all)
  | cons p rest ih =>
      obtain ⟨a, b⟩ := p
      by_cases hak : a = k
      · subst hak
        simp only [dbRemove, if_pos rfl, dbGet, ih]
        split_ifs <;> first | rfl | (subst_vars; first | rfl | simp_all)
      · simp only [dbRemove, if_neg hak, dbGet, ih]
        split_ifs <;> first | rfl | (subst_vars; first | rfl | simp_all)

theorem dbRemove_absent (db : Db) (k : String) (h : dbGet db k = none) :
    dbRemove db k = db := by
  induction db with
  | nil => rfl
  | cons p rest ih =>
      obtain ⟨a, b⟩ := p
      by_cases hak : a = k
      · subst hak
        simp [dbGet] at h
      · simp only [dbGet, if_neg hak] at h
        simp [dbRemove, hak, ih h]

/-! ### Commands and parsing (`src/main.rs`, leader side) -/

/-- `enum Command` of `src/main.rs`. -/
inductive Command where
  | get (k : String)
  | set (k v : String)
  | delete (k : String)
  | unknown
deriving DecidableEq, Repr

/-- `impl From<String> for Command` in `src/main.rs`.  The Rust code takes
`split_whitespace().skip(1)`, then `.next().expect("Expected a key")`
(a panic, modelled as `none`), then branches on `s.starts_with("SET")`,
`s.starts_with("GET")`, `s.starts_with("DEL")` over the raw string; in the
`SET` branch `.next().expect("Expected a value")` again panics (`none`)
when no third token exists. -/
def parseCommand (s : String) : Option Command :=
  match (wsTokens s).drop 1 with
  | [] => none
  | key :: rest =>
    if strStartsWith s "SET" then
      match rest with
      | [] => none
      | v :: _ => some (.set key v)
    else if strStartsWith s "GET" then some (.get key)
    else if strStartsWith s "DEL" then some (.delete key)
    else some .unknown

/-- `enum Response` of `src/main.rs`. -/
inductive Response where
  | got (k v : String)
  | set (k v : String)
  | replace (k oldV newV : String)
  | delete (k v : String)
  | keyNotFound (k : String)
  | unknown
deriving DecidableEq, Repr

/-- `run_command` of `src/main.rs`: the command applier.  The Rust function
mutates the map and returns the `Response`; here it returns the new map
together with the response.  (`contains_key` followed by `get(..).unwrap()`
is modelled as one `match` on `dbGet`.) -/
def run_command (db : Db) (c : Command) : Db × Response :=
  match c with
  | .get k =>
      match dbGet db k with
      | some v => (db, .got k v)
      | none => (db, .keyNotFound k)
  | .set k v =>
      match dbGet db k with
      | some oldV => (dbInsert db k v, .replace k oldV v)
      | none => (dbInsert db k v, .set k v)
  | .delete k =>
      match dbGet db k with
      | some oldV => (dbRemove db k, .delete k oldV)
      | none => (db, .keyNotFound k)
  | .unknown => (db, .unknown)

/-! ### The leader's persist path (`persist_command` in `src/main.rs`) -/

/-- Serialization of a committed `SET`, exactly `format!("SET {} {}\n", key, val)`. -/
def serSet (k v : String) : String := "SET " ++ k ++ " " ++ v ++ "\n"

/-- Serialization of a committed `DEL`, exactly `format!("DEL {}\n", key)`. -/
def serDel (k : String) : String := "DEL " ++ k ++ "\n"

/-- Observable side effects of `persist_command`, in program order:
`fwrite` is `file.write_all`, `nwrite` is `stream.write_all` (the forward
to the follower), `sync` is `file.sync_all`. -/
inductive Event where
  | fwrite (s : String)
  | nwrite (s : String)
  | sync
deriving DecidableEq, Repr

/-- `persist_command` of `src/main.rs`: run the command, then —
only when the response is `Response::Set` or `Response::Delete` —
write the serialized record to the log file and forward the identical
bytes on the TCP stream; `file.sync_all()` runs unconditionally after
the `match`.  The event list records the effects in program order. -/
def persist_command (db : Db) (c : Command) : Db × List Event × Response :=
  let (db2, response) := run_command db c
  let evs : List Event :=
    match response with
    | .set k v => [.fwrite (serSet k v), .nwrite (serSet k v)]
    | .delete k _ => [.fwrite (serDel k), .nwrite (serDel k)]
    | _ => []
  (db2, evs ++ [.sync], response)

/-- Bytes appended to the log file by a trace of events, in order. -/
def fileOut (evs : List Event) : String :=
  evs.foldl (fun acc e => match e with | .fwrite s => acc ++ s | _ => acc) ""

/-- Bytes sent on the replication channel by a trace of events, in order. -/
def netOut (evs : List Event) : String :=
  evs.foldl (fun acc e => match e with | .nwrite s => acc ++ s | _ => acc) ""

/-- `true` iff every network write in the trace happens after some
durability barrier (`sync`): the ordering the spec claims for forwards. -/
def sentAfterSyncAux : Bool → List Event → Bool
  | _, [] => true
  | _, Event.sync :: r => sentAfterSyncAux true r
  | seen, Event.nwrite _ :: r => seen && sentAfterSyncAux seen r
  | seen, Event.fwrite _ :: r => sentAfterSyncAux seen r

def sentAfterSync (evs : List Event) : Bool := sentAfterSyncAux false evs

/-- One iteration of `setup_leader`'s readline loop on one input line:
parse it (`Command::from`, whose panic is `none`) and run
`persist_command`.  The state is the table together with the
accumulated contents of `leader.log`. -/
def leaderStepLine (st : Db × String) (line : String) : Option (Db × String) :=
  match parseCommand line with
  | none => none
  | some c =>
      let r := persist_command st.1 c
      some (r.1, st.2 ++ fileOut r.2.1)

/-- `setup_leader`'s loop over a list of input lines. -/
def leaderRunLines : Db × String → List String → Option (Db × String)
  | st, [] => some st
  | st, l :: ls =>
      match leaderStepLine st l with
      | none => none
      | some st2 => leaderRunLines st2 ls

/-! ### Startup replay (`replay` in `src/main.rs`) -/

/-- `replay` of `src/main.rs`, over the list of lines of the log file:
each line goes through `Command::from` (panic = `none`); `Set` inserts,
`Delete` removes, anything else (`Get`/`Unknown`) is skipped by the
wildcard arm. -/
def replayLines : List String → Db → Option Db
  | [], db => some db
  | l :: ls, db =>
      match parseCommand l with
      | none => none
      | some (.set k v) => replayLines ls (dbInsert db k v)
      | some (.delete k) => replayLines ls (dbRemove db k)
      | some _ => replayLines ls db

/-- Replay a whole log file from its raw contents, starting from the
empty table, as `setup_leader`/`setup_follower` do at startup. -/
def replayFile (contents : String) : Option Db := replayLines (fileLines contents) []

/-! ### The follower (`src/follower.rs`) -/

/-- `enum Command` of `src/follower.rs` (no `Get` variant). -/
inductive FCommand where
  | set (k v : String)
  | delete (k : String)
  | unknown
deriving DecidableEq, Repr

/-- `impl From<String> for Command` in `src/follower.rs`: same token
extraction as the leader's parser (`.expect` panics modelled as `none`),
but only the `SET` and `DEL` raw-string prefixes are recognised. -/
def parseFCommand (s : String) : Option FCommand :=
  match (wsTokens s).drop 1 with
  | [] => none
  | key :: rest =>
    if strStartsWith s "SET" then
      match rest with
      | [] => none
      | v :: _ => some (.set key v)
    else if strStartsWith s "DEL" then some (.delete key)
    else some .unknown

/-- The state mutation performed by one arm of `handle_client`'s `match`
(and likewise by the follower's own `replay`): `Set` inserts, `Delete`
removes, `Unknown` does nothing. -/
def followerApply (db : Db) (c : FCommand) : Db :=
  match c with
  | .set k v => dbInsert db k v
  | .delete k => dbRemove db k
  | .unknown => db

/-- One iteration of `handle_client`'s read loop in `src/follower.rs` on
one received line: `trim_end` the data, parse it (panic = `none`), and,
under the two mutexes, mutate the table and append the re-serialized
record to `follower.db`; `Unknown` does nothing.  The state is the
follower's table together with the accumulated log-file contents. -/
def handleLine (st : Db × String) (data : String) : Option (Db × String) :=
  match parseFCommand (trimEnd data) with
  | none => none
  | some (.delete k) => some (dbRemove st.1 k, st.2 ++ serDel k)
  | some (.set k v) => some (dbInsert st.1 k v, st.2 ++ serSet k v)
  | some .unknown => some st

/-- The leader-side command corresponding to a follower-side command. -/
def leaderCmd : FCommand → Command
  | .set k v => .set k v
  | .delete k => .delete k
  | .unknown => .unknown

/-- The leader's table evolution on one command (the table component of
`run_command`). -/
def leaderApplyTbl (db : Db) (c : FCommand) : Db := (run_command db (leaderCmd c)).1

theorem string_append_empty (s : String) : s ++ "" = s := by
  cases s with
  | mk data => show String.mk (data ++ []) = String.mk data
               rw [List.append_nil]

theorem leaderApplyTbl_eq_followerApply (db : Db) (c : FCommand) :
    leaderApplyTbl db c = followerApply db c := by
  cases c with
  | set k v =>
      simp only [leaderApplyTbl, leaderCmd, run_command, followerApply]
      cases dbGet db k <;> rfl
  | delete k =>
      simp only [leaderApplyTbl, leaderCmd, run_command, followerApply]
      cases h : dbGet db k with
      | none => exact (dbRemove_absent db k h).symm
      | some oldV => rfl
  | unknown => rfl

/-! ### Claim theorems -/

/-- C1.  The claim says every committed `Set`/`Delete` produces exactly one
log append (plus barrier) and an identical forward.  The code violates it:
a `SET` on a present key yields `Response::Replace`, which falls into the
wildcard arm of `persist_command`'s `match`, so the command is applied to
the table (committed) yet nothing is appended to the log and nothing is
forwarded — only the unconditional `sync_all` runs.  This theorem
evaluates the code at the failing input `SET a 2` against table `{a: 1}`. -/
theorem c1_replace_commits_without_append :
    (run_command [("a", "1")] (Command.set "a" "2")).1 = [("a", "2")] ∧
    (run_command [("a", "1")] (Command.set "a" "2")).2 = Response.replace "a" "1" "2" ∧
    (persist_command [("a", "1")] (Command.set "a" "2")).2.1 = [Event.sync] ∧
    fileOut (persist_command [("a", "1")] (Command.set "a" "2")).2.1 = "" ∧
    netOut (persist_command [("a", "1")] (Command.set "a" "2")).2.1 = "" := by decide

/-- C2.  Running the spec's concrete scenario `SET a 1`, `SET b 2`,
`DEL a`, `SET b 3` through the leader session from an empty table and an
empty log: the final table is `{b: 3}` as claimed, but the log file has
only the three lines `SET a 1`, `SET b 2`, `DEL a` (the final `SET b 3`
produced `Response::Replace` and was never appended), and replaying that
log yields `{b: 2}`, not `{b: 3}`. -/
theorem c2_concrete_scenario_fails :
    leaderRunLines ([], "") ["SET a 1", "SET b 2", "DEL a", "SET b 3"]
      = some ([("b", "3")], "SET a 1\nSET b 2\nDEL a\n") ∧
    fileLines "SET a 1\nSET b 2\nDEL a\n" = ["SET a 1", "SET b 2", "DEL a"] ∧
    replayFile "SET a 1\nSET b 2\nDEL a\n" = some [("b", "2")] ∧
    ([("b", "2")] : Db) ≠ [("b", "3")] := by decide

/-- C3.  The claim says the in-memory table is always reconstructible by
replaying the node's own log.  Counter-evaluation: after `SET k 1` then
`SET k 2` the leader's table is `{k: 2}` but its log contains only
`SET k 1` (the overwrite was a `Replace` and was not appended), so replay
rebuilds `{k: 1}` — a restart loses the second write. -/
theorem c3_table_not_reconstructible :
    leaderRunLines ([], "") ["SET k 1", "SET k 2"] = some ([("k", "2")], "SET k 1\n") ∧
    replayFile "SET k 1\n" = some [("k", "1")] ∧
    ([("k", "1")] : Db) ≠ [("k", "2")] := by decide

/-- C4 counterexample.  The claim says the serialized record is sent on
the replication channel only after the local append's durability barrier
has completed.  In `persist_command` the `stream.write_all` forward runs
inside the `match`, while `file.sync_all()` only runs after it: at the
concrete input `SET a 1` on an empty table the event trace is
`[fwrite, nwrite, sync]`, so the network write precedes the only sync. -/
theorem c4_forward_precedes_sync :
    (persist_command [] (Command.set "a" "1")).2.1
      = [Event.fwrite (serSet "a" "1"), Event.nwrite (serSet "a" "1"), Event.sync] ∧
    sentAfterSync (persist_command [] (Command.set "a" "1")).2.1 = false := by decide

/-- C4 amended.  The order the leader actually performs for a committed
mutating command is apply, then append (`write_all`, not yet synced),
then forward, then the durability barrier (`sync_all`) — the forward
precedes the sync.  Moreover only `Set`-on-absent-key and
`Delete`-on-present-key append and forward at all; `Set` on a present
key, `Delete` on an absent key, `Get` and `Unrecognized` produce just
the unconditional sync. -/
theorem c4_actual_effect_order (db : Db) (k v : String) :
    (persist_command db (Command.set k v)).2.1
      = (match dbGet db k with
         | none => [Event.fwrite (serSet k v), Event.nwrite (serSet k v), Event.sync]
         | some _ => [Event.sync]) ∧
    (persist_command db (Command.delete k)).2.1
      = (match dbGet db k with
         | some _ => [Event.fwrite (serDel k), Event.nwrite (serDel k), Event.sync]
         | none => [Event.sync]) ∧
    (persist_command db (Command.get k)).2.1 = [Event.sync] ∧
    (persist_command db Command.unknown).2.1 = [Event.sync] := by
  refine ⟨?_, ?_, ?_, ?_⟩
  · simp only [persist_command, run_command]
    cases dbGet db k <;> rfl
  · simp only [persist_command, run_command]
    cases dbGet db k <;> rfl
  · simp only [persist_command, run_command]
    cases dbGet db k <;> rfl
  · rfl

/-- C5.  The command applier's semantics, exactly as claimed: `Set` on an
absent key inserts and answers `Set` (the spec's `Inserted`); `Set` on a
present key overwrites and answers `Replace` with the correct prior
value; `Delete` on a present key removes the key and answers `Delete`
(the spec's `Removed`) with the prior value; `Delete` on an absent key
answers `KeyNotFound` and leaves the table untouched; `Get` and
`Unknown` never mutate.  The lookup equations state the table effect
pointwise at every key `k2`. -/
theorem c5_applier_semantics (db : Db) (k v k2 : String) :
    run_command db (Command.set k v)
      = (dbInsert db k v,
         match dbGet db k with
         | none => Response.set k v
         | some oldV => Response.replace k oldV v) ∧
    run_command db (Command.delete k)
      = (match dbGet db k with
         | none => (db, Response.keyNotFound k)
         | some oldV => (dbRemove db k, Response.delete k oldV)) ∧
    dbGet (dbInsert db k v) k2 = (if k2 = k then some v else dbGet db k2) ∧
    dbGet (dbRemove db k) k2 = (if k2 = k then none else dbGet db k2) ∧
    (run_command db (Command.get k)).1 = db ∧
    (run_command db Command.unknown).1 = db := by
  refine ⟨?_, ?_, dbGet_insert db k v k2, dbGet_remove db k k2, ?_, rfl⟩
  · simp only [run_command]
    cases dbGet db k <;> rfl
  · simp only [run_command]
    cases dbGet db k <;> rfl
  · simp only [run_command]
    cases dbGet db k <;> rfl

/-- C6 counterexample.  The claim says any line that fails to parse as a
known command aborts replay with a returned error and no line is ever
silently skipped.  The spec's own corrupt line `FOO bar` parses as
`Command::Unknown` and falls into `replay`'s wildcard arm: it is silently
skipped, replay continues past it and succeeds. -/
theorem c6_corrupt_line_silently_skipped :
    parseCommand "FOO bar" = some Command.unknown ∧
    replayLines ["FOO bar", "SET a 1"] [] = some [("a", "1")] ∧
    replayFile "FOO bar\n" = some [] := by decide

/-- C6 amended.  `replay`'s actual parse policy: a line with at least two
whitespace tokens whose raw text starts with none of `SET`/`GET`/`DEL`
parses as `Unknown` and is silently skipped (replay continues); a line
on which the tokenizing `.expect` fails (fewer than two tokens, or a
`SET`-prefixed line with no value token) makes `Command::from` panic,
aborting the whole process rather than returning an error; when every
line parses, replay always produces a table.  Replay returns `Err` only
on an I/O failure, which is outside this model. -/
theorem c6_actual_replay_policy (ls : List String) (db : Db) :
    ((∀ l ∈ ls, (parseCommand l).isSome) → (replayLines ls db).isSome) ∧
    (∀ l, l ∈ ls → parseCommand l = none → replayLines ls db = none) ∧
    (∀ l, parseCommand l = some Command.unknown →
        replayLines (l :: ls) db = replayLines ls db) := by
  induction ls generalizing db with
  | nil =>
      refine ⟨fun _ => rfl, fun l hl => absurd hl (List.not_mem_nil l), ?_⟩
      intro l hl
      simp [replayLines, hl]
  | cons hd tl ih =>
      refine ⟨?_, ?_, ?_⟩
      · intro hall
        have hhd := hall hd (List.mem_cons_self hd tl)
        match hp : parseCommand hd with
        | none => rw [hp] at hhd; exact absurd hhd (by simp)
        | some (.set k v) =>
            simpa [replayLines, hp] using
              (ih (dbInsert db k v)).1 (fun l hl => hall l (List.mem_cons_of_mem hd hl))
        | some (.delete k) =>
            simpa [replayLines, hp] using
              (ih (dbRemove db k)).1 (fun l hl => hall l (List.mem_cons_of_mem hd hl))
        | some (.get k) =>
            simpa [replayLines, hp] using
              (ih db).1 (fun l hl => hall l (List.mem_cons_of_mem hd hl))
        | some .unknown =>
            simpa [replayLines, hp] using
              (ih db).1 (fun l hl => hall l (List.mem_cons_of_mem hd hl))
      · intro l hl hnone
        rcases List.mem_cons.mp hl with heq | htl
        · subst heq
          simp [replayLines, hnone]
        · match hp : parseCommand hd with
          | none => simp [replayLines, hp]
          | some (.set k v) =>
              simpa [replayLines, hp] using (ih (dbInsert db k v)).2.1 l htl hnone
          | some (.delete k) =>
              simpa [replayLines, hp] using (ih (dbRemove db k)).2.1 l htl hnone
          | some (.get k) =>
              simpa [replayLines, hp] using (ih db).2.1 l htl hnone
          | some .unknown =>
              simpa [replayLines, hp] using (ih db).2.1 l htl hnone
      · intro l hl
        simp [replayLines, hl]

/-- C6 amended, witnessed: the unrecognised line `FOO bar` is skipped and
replay of the remaining lines succeeds, while the one-token line `FOO`
(a parse panic) makes replay of its file produce no table. -/
theorem c6_actual_replay_policy_witness :
    (replayLines ["SET a 1"] []).isSome ∧
    replayLines ["FOO"] [] = none ∧
    replayLines ["FOO bar", "SET a 1"] [] = replayLines ["SET a 1"] [] :=
  ⟨(c6_actual_replay_policy ["SET a 1"] []).1 (by decide),
   (c6_actual_replay_policy ["FOO"] []).2.1 "FOO" (List.mem_cons_self _ _) (by decide),
   (c6_actual_replay_policy ["SET a 1"] []).2.2 "FOO bar" (by decide)⟩

/-- C7 counterexample.  The claim says handling a live input line is
total and the process never aborts on a malformed line.  A line with a
single token — `FOO` on the leader's prompt, or `FOO\n` arriving on a
follower connection — makes `Command::from`'s
`.next().expect("Expected a key")` panic (modelled as `none`): the
leader's readline loop and the follower's `handle_client` both abort. -/
theorem c7_short_line_aborts :
    parseCommand "FOO" = none ∧
    leaderStepLine ([], "") "FOO" = none ∧
    parseFCommand "FOO" = none ∧
    handleLine ([], "") "FOO\n" = none := by decide

/-- C7 amended.  A malformed live line is a no-op only when it still
tokenizes far enough to parse as `Unknown` (at least two whitespace
tokens, and a value token too when the raw line starts with `SET`): such
a line changes neither the table nor the log and the session continues,
on the leader (modulo the unconditional `sync_all`) and on the follower
alike.  A line on which token extraction fails panics instead, aborting
the session (leader process / follower connection task), modelled as
`none`. -/
theorem c7_actual_live_input (db : Db) (f : String) (line : String) :
    (parseCommand line = some Command.unknown →
        leaderStepLine (db, f) line = some (db, f)) ∧
    (parseFCommand (trimEnd line) = some FCommand.unknown →
        handleLine (db, f) line = some (db, f)) ∧
    (parseCommand line = none → leaderStepLine (db, f) line = none) ∧
    (parseFCommand (trimEnd line) = none → handleLine (db, f) line = none) := by
  refine ⟨?_, ?_, ?_, ?_⟩
  · intro h
    simp [leaderStepLine, h, persist_command, run_command, fileOut, string_append_empty]
  · intro h
    simp [handleLine, h]
  · intro h
    simp [leaderStepLine, h]
  · intro h
    simp [handleLine, h]

/-- C7 amended, witnessed at the spec's own malformed line `FOO bar`
(a no-op on both roles) and at the panicking line `FOO`. -/
theorem c7_actual_live_input_witness :
    leaderStepLine ([("x", "0")], "L") "FOO bar" = some ([("x", "0")], "L") ∧
    handleLine ([("x", "0")], "L") "FOO bar\n" = some ([("x", "0")], "L") ∧
    leaderStepLine ([("x", "0")], "L") "FOO" = none ∧
    handleLine ([("x", "0")], "L") "FOO" = none :=
  ⟨(c7_actual_live_input [("x", "0")] "L" "FOO bar").1 (by decide),
   (c7_actual_live_input [("x", "0")] "L" "FOO bar\n").2.1 (by decide),
   (c7_actual_live_input [("x", "0")] "L" "FOO").2.2.1 (by decide),
   (c7_actual_live_input [("x", "0")] "L" "FOO").2.2.2 (by decide)⟩

theorem strStartsWith_head (s p : String) (c : Char) (cs : List Char)
    (hp : p.toList = c :: cs) (h : strStartsWith s p = true) :
    s.toList.head? = some c := by
  unfold strStartsWith at h
  rw [hp] at h
  cases hs : s.toList with
  | nil => rw [hs] at h; simp [List.isPrefixOf] at h
  | cons d ds =>
      rw [hs] at h
      simp only [List.isPrefixOf, Bool.and_eq_true, beq_iff_eq] at h
      simp [h.1]

/-- The three recognised keyword prefixes are mutually exclusive on any
line (they begin with distinct characters). -/
theorem keyword_prefixes_disjoint (s : String) :
    (strStartsWith s "SET" = true → strStartsWith s "GET" = false ∧
        strStartsWith s "DEL" = false) ∧
    (strStartsWith s "GET" = true → strStartsWith s "SET" = false ∧
        strStartsWith s "DEL" = false) ∧
    (strStartsWith s "DEL" = true → strStartsWith s "SET" = false ∧
        strStartsWith s "GET" = false) := by
  have hS : "SET".toList = 'S' :: ['E', 'T'] := rfl
  have hG : "GET".toList = 'G' :: ['E', 'T'] := rfl
  have hD : "DEL".toList = 'D' :: ['E', 'L'] := rfl
  refine ⟨fun h => ⟨?_, ?_⟩, fun h => ⟨?_, ?_⟩, fun h => ⟨?_, ?_⟩⟩ <;>
    · by_contra hq
      rw [Bool.not_eq_false] at hq
      have h1 := strStartsWith_head s _ _ _ (by rfl) h
      have h2 := strStartsWith_head s _ _ _ (by rfl) hq
      rw [h1] at h2
      simp at h2

/-- C8 counterexample.  The claim says a line parses as `Set`/`Get`/
`Delete` exactly when its first whitespace token is exactly `SET`/`GET`/
`DEL`.  The code instead tests `s.starts_with(..)` on the raw string:
`SETTER a b`, whose first token is `SETTER`, parses as `Set("a", "b")`;
and ` SET a b` (leading space), whose first token is exactly `SET`,
parses as `Unknown`. -/
theorem c8_prefix_not_exact_token :
    parseCommand "SETTER a b" = some (Command.set "a" "b") ∧
    (wsTokens "SETTER a b").head? = some "SETTER" ∧
    ("SETTER" : String) ≠ "SET" ∧
    parseCommand " SET a b" = some Command.unknown ∧
    (wsTokens " SET a b").head? = some "SET" := by decide

/-- C8 amended.  Classification is by raw-string prefix, not by the first
token: on any line with at least two whitespace tokens, a `SET`-prefixed
raw line parses as `Set(second token, third token)` (panicking — `none` —
without a third token), a `GET`-prefixed line as `Get(second token)`, a
`DEL`-prefixed line as `Delete(second token)`, and a line with none of
the three prefixes as `Unknown`; a line with fewer than two tokens
panics.  The three prefixes are mutually exclusive, so the `SET`-first
test order never shadows the other branches. -/
theorem c8_actual_classification (s : String) :
    ((wsTokens s).drop 1 = [] → parseCommand s = none) ∧
    ∀ t k rest, wsTokens s = t :: k :: rest →
      (strStartsWith s "SET" = true →
          parseCommand s
            = (match rest with | [] => none | v :: _ => some (Command.set k v))) ∧
      (strStartsWith s "GET" = true → parseCommand s = some (Command.get k)) ∧
      (strStartsWith s "DEL" = true → parseCommand s = some (Command.delete k)) ∧
      (strStartsWith s "SET" = false → strStartsWith s "GET" = false →
          strStartsWith s "DEL" = false → parseCommand s = some Command.unknown) := by
  refine ⟨?_, ?_⟩
  · intro h
    simp [parseCommand, h]
  · intro t k rest htok
    have hdrop : (wsTokens s).drop 1 = k :: rest := by rw [htok]; rfl
    refine ⟨?_, ?_, ?_, ?_⟩
    · intro hset
      cases rest <;> simp [parseCommand, hdrop, hset]
    · intro hget
      have hns := ((keyword_prefixes_disjoint s).2.1 hget).1
      simp [parseCommand, hdrop, hget, hns]
    · intro hdel
      have hns := ((keyword_prefixes_disjoint s).2.2 hdel).1
      have hng := ((keyword_prefixes_disjoint s).2.2 hdel).2
      simp [parseCommand, hdrop, hdel, hns, hng]
    · intro h1 h2 h3
      simp [parseCommand, hdrop, h1, h2, h3]

/-- C8 amended, witnessed on one line per branch: a short line, a
`SET`-prefixed line with a non-keyword first token, a `GET` line, a
`DELETE`-spelled line (prefix `DEL`), and an unrecognised line. -/
theorem c8_actual_classification_witness :
    parseCommand "X" = none ∧
    parseCommand "SETTER a b" = some (Command.set "a" "b") ∧
    parseCommand "GET a" = some (Command.get "a") ∧
    parseCommand "DELETE a" = some (Command.delete "a") ∧
    parseCommand "FOO bar" = some Command.unknown :=
  ⟨(c8_actual_classification "X").1 (by decide),
   ((c8_actual_classification "SETTER a b").2 "SETTER" "a" ["b"] (by decide)).1 (by decide),
   ((c8_actual_classification "GET a").2 "GET" "a" [] (by decide)).2.1 (by decide),
   ((c8_actual_classification "DELETE a").2 "DELETE" "a" [] (by decide)).2.2.1 (by decide),
   ((c8_actual_classification "FOO bar").2 "FOO" "bar" [] (by decide)).2.2.2
      (by decide) (by decide) (by decide)⟩

/-- C9.  Determinism across replicas: on any identical ordered command
sequence and any identical starting table, the leader's table evolution
(the table component of `run_command`) and the follower's table
evolution (`handle_client`'s insert/remove arms) coincide after every
prefix — the two paths produce identical state-table evolution. -/
theorem c9_leader_follower_agree (db : Db) (cs : List FCommand) (n : Nat) :
    List.foldl leaderApplyTbl db (cs.take n)
      = List.foldl followerApply db (cs.take n) := by
  induction cs generalizing db n with
  | nil => simp
  | cons c rest ih =>
      cases n with
      | zero => rfl
      | succ m =>
          simp only [List.take_succ_cons, List.foldl_cons,
            leaderApplyTbl_eq_followerApply]
          exact ih (followerApply db c) m

/-! ### Concurrent follower connections (C10)

`setup_follower` spawns one `handle_client` task per accepted connection;
all tasks share one `Arc<Mutex<Db>>` and one `Arc<Mutex<File>>`.  For a
mutating command a task locks the table, locks the file, applies the
command, appends the record with `write_all` and runs `sync_all`, and
only then drops both guards (end of the `match` arm); an `Unknown`
command touches neither lock.  The model below is a small-step
interleaving semantics of N such tasks: `pending` holds each
connection's remaining parsed commands in arrival order, `active` is the
command currently inside the critical section together with its program
counter (0 = locks just taken, 1 = applied, 2 = appended, 3 = synced),
and the log is the list of appended records — each `write_all` of one
record is a single atomic append, which is what holding the file mutex
across the whole `write_all`/`sync_all` pair guarantees (no interleaved
partial lines). -/

def isUnk : FCommand → Bool
  | .unknown => true
  | _ => false

/-- The mutating commands of one connection's stream, in order. -/
def mutOnly (l : List FCommand) : List FCommand := l.filter (fun c => !(isUnk c))

/-- All mutating commands issued across the connections, connection by
connection, in per-connection order. -/
def mutFlat (pd : List (List FCommand)) : List FCommand := (pd.map mutOnly).flatten

/-- A follower node shared by concurrent connection handlers. -/
structure CNode where
  table : Db
  log : List FCommand
  pending : List (List FCommand)
  active : Option (FCommand × Nat)
deriving DecidableEq, Repr

/-- One scheduler step.  `acquire` is only enabled while no other handler
holds the mutexes (`active = none`); `applyStep`/`appendStep`/`syncStep`/
`releaseStep` are the body of the critical section in `handle_client`'s
program order; `skipStep` consumes an `Unknown` line, which takes no
lock and has no effect. -/
inductive CStep : CNode → CNode → Prop where
  | acquire (tb : Db) (lg : List FCommand) (bf af : List (List FCommand))
      (rest : List FCommand) (c : FCommand) (hc : c ≠ FCommand.unknown) :
      CStep ⟨tb, lg, bf ++ (c :: rest) :: af, none⟩
            ⟨tb, lg, bf ++ rest :: af, some (c, 0)⟩
  | applyStep (tb : Db) (lg : List FCommand) (pd : List (List FCommand)) (c : FCommand) :
      CStep ⟨tb, lg, pd, some (c, 0)⟩ ⟨followerApply tb c, lg, pd, some (c, 1)⟩
  | appendStep (tb : Db) (lg : List FCommand) (pd : List (List FCommand)) (c : FCommand) :
      CStep ⟨tb, lg, pd, some (c, 1)⟩ ⟨tb, lg ++ [c], pd, some (c, 2)⟩
  | syncStep (tb : Db) (lg : List FCommand) (pd : List (List FCommand)) (c : FCommand) :
      CStep ⟨tb, lg, pd, some (c, 2)⟩ ⟨tb, lg, pd, some (c, 3)⟩
  | releaseStep (tb : Db) (lg : List FCommand) (pd : List (List FCommand)) (c : FCommand) :
      CStep ⟨tb, lg, pd, some (c, 3)⟩ ⟨tb, lg, pd, none⟩
  | skipStep (tb : Db) (lg : List FCommand) (bf af : List (List FCommand))
      (rest : List FCommand) (act : Option (FCommand × Nat)) :
      CStep ⟨tb, lg, bf ++ (FCommand.unknown :: rest) :: af, act⟩
            ⟨tb, lg, bf ++ rest :: af, act⟩

/-- A fresh node: empty table, empty log, the commands still pending. -/
def initNode (pd : List (List FCommand)) : CNode := ⟨[], [], pd, none⟩

/-- The command held inside the critical section that is not yet in the
log (program counters 0 and 1). -/
def actPend : Option (FCommand × Nat) → List FCommand
  | some (c, 0) => [c]
  | some (c, 1) => [c]
  | _ => []

/-- The records the table has already absorbed: the log, plus the active
command when it is applied but not yet appended (program counter 1). -/
def effLog (st : CNode) : List FCommand :=
  st.log ++ (match st.active with | some (c, 1) => [c] | _ => [])

/-- The execution invariant: the table is the fold of the applier over
the absorbed records, and log + in-flight + still-pending mutating
commands are a permutation of all issued mutating commands. -/
def CInv (pd0 : List (List FCommand)) (st : CNode) : Prop :=
  st.table = List.foldl followerApply [] (effLog st) ∧
  (st.log ++ actPend st.active ++ mutFlat st.pending).Perm (mutFlat pd0)

theorem mutFlat_append_cons (bf af : List (List FCommand)) (x : List FCommand) :
    mutFlat (bf ++ x :: af) = mutFlat bf ++ (mutOnly x ++ mutFlat af) := by
  simp [mutFlat, List.map_append, List.flatten_append]

theorem mutOnly_cons_mut (c : FCommand) (rest : List FCommand)
    (hc : c ≠ FCommand.unknown) : mutOnly (c :: rest) = c :: mutOnly rest := by
  cases c <;> simp_all [mutOnly, isUnk]

theorem mutOnly_cons_unk (rest : List FCommand) :
    mutOnly (FCommand.unknown :: rest) = mutOnly rest := by
  simp [mutOnly, isUnk]

theorem mutFlat_all_nil (pd : List (List FCommand)) (h : ∀ l ∈ pd, l = []) :
    mutFlat pd = [] := by
  induction pd with
  | nil => rfl
  | cons hd tl ih =>
      rw [h hd (List.mem_cons_self hd tl)]
      have := ih (fun l hl => h l (List.mem_cons_of_mem hd hl))
      simpa [mutFlat, mutOnly] using this

theorem cstep_inv (pd0 : List (List FCommand)) (s1 s2 : CNode)
    (hs : CStep s1 s2) (hi : CInv pd0 s1) : CInv pd0 s2 := by
  obtain ⟨ht, hp⟩ := hi
  cases hs with
  | acquire tb lg bf af rest c hc =>
      refine ⟨ht, List.Perm.trans ?_ hp⟩
      rw [List.perm_iff_count]
      intro a
      simp [actPend, mutFlat_append_cons, mutOnly_cons_mut c rest hc,
        List.count_append, List.count_cons]
      ring
  | applyStep tb lg pd c =>
      refine ⟨?_, hp⟩
      simp only [effLog, List.append_nil] at ht
      simp only [effLog, List.foldl_append, List.foldl_cons, List.foldl_nil]
      rw [ht]
  | appendStep tb lg pd c =>
      refine ⟨?_, ?_⟩
      · simpa [effLog] using ht
      · refine List.Perm.trans ?_ hp
        rw [List.perm_iff_count]
        intro a
        simp [actPend, List.count_append, List.count_cons]
  | syncStep tb lg pd c =>
      exact ⟨ht, hp⟩
  | releaseStep tb lg pd c =>
      exact ⟨ht, hp⟩
  | skipStep tb lg bf af rest act =>
      refine ⟨ht, List.Perm.trans ?_ hp⟩
      rw [List.perm_iff_count]
      intro a
      simp [mutFlat_append_cons, mutOnly_cons_unk, List.count_append]

theorem creach_inv (pd0 : List (List FCommand)) (st : CNode)
    (h : Relation.ReflTransGen CStep (initNode pd0) st) : CInv pd0 st := by
  induction h with
  | refl => exact ⟨rfl, by simp [initNode, actPend, effLog]⟩
  | tail _ hbc ih => exact cstep_inv pd0 _ _ hbc ih

/-- C10.  Concurrent-writer serialization on the follower: from any
initial distribution of command streams over the connections, any
interleaving of the handlers that runs to completion (mutexes free,
nothing pending) leaves a log that is exactly the issued mutating
commands in some total order — each record appended whole, under the
held file lock — and a table equal to the fold of the command applier
over precisely that recorded order. -/
theorem c10_concurrent_serialization (pd0 : List (List FCommand)) (final : CNode)
    (hr : Relation.ReflTransGen CStep (initNode pd0) final)
    (hact : final.active = none) (hpend : ∀ l ∈ final.pending, l = []) :
    final.table = List.foldl followerApply [] final.log ∧
    final.log.Perm (mutFlat pd0) := by
  obtain ⟨ht, hp⟩ := creach_inv pd0 final hr
  constructor
  · rw [ht]
    simp [effLog, hact]
  · have h0 := mutFlat_all_nil final.pending hpend
    rw [hact, h0] at hp
    simpa [actPend] using hp

/-- C10, witnessed on one connection issuing one `SET a 1`: the five
steps acquire, apply, append, sync, release reach a terminal node whose
log is that single record and whose table is the fold over it. -/
theorem c10_concurrent_serialization_witness :
    ([("a", "1")] : Db) = List.foldl followerApply [] [FCommand.set "a" "1"] ∧
    ([FCommand.set "a" "1"]).Perm (mutFlat [[FCommand.set "a" "1"]]) := by
  have hchain : Relation.ReflTransGen CStep
      (initNode [[FCommand.set "a" "1"]])
      ⟨[("a", "1")], [FCommand.set "a" "1"], [[]], none⟩ := by
    refine Relation.ReflTransGen.head
      (CStep.acquire [] [] [] [] [] (FCommand.set "a" "1") (by simp)) ?_
    refine Relation.ReflTransGen.head
      (CStep.applyStep [] [] [[]] (FCommand.set "a" "1")) ?_
    refine Relation.ReflTransGen.head
      (CStep.appendStep [("a", "1")] [] [[]] (FCommand.set "a" "1")) ?_
    refine Relation.ReflTransGen.head
      (CStep.syncStep [("a", "1")] [FCommand.set "a" "1"] [[]] (FCommand.set "a" "1")) ?_
    exact Relation.ReflTransGen.single
      (CStep.releaseStep [("a", "1")] [FCommand.set "a" "1"] [[]] (FCommand.set "a" "1"))
  exact c10_concurrent_serialization [[FCommand.set "a" "1"]]
    ⟨[("a", "1")], [FCommand.set "a" "1"], [[]], none⟩ hchain rfl (by simp)

end DistKV
